import Mathlib

/-!
Verification of the valkoma-markdown-preview widget
(`src/src/components/valkoma-markdown.tsx`) against its specification.

The development shallowly embeds the TypeScript source in Lean:

* the token classifier `highlightCode` (HTML escaping followed by the
  string / comment / number / keyword regex-substitution passes) is
  embedded as executable functions over `List Char`, mirroring the
  JavaScript `String.replace` global-substitution semantics of the exact
  regexes used by the source;
* the presentation shell's document state, the `handleMarkdownChange`
  update (50,000-character cap) and the derived `stats` are embedded as
  plain state-passing functions;
* the `ErrorBoundary` class component is embedded as its state machine
  (`getDerivedStateFromError`, the retry `setState`, and `render`).

JavaScript strings are modelled as `List Char` (Unicode code points; the
source only manipulates them code-unit-wise with patterns that agree on
code points for the inputs of interest).
-/

/-! ## Whitespace, trimming and word splitting (presentation shell) -/

/-- The whitespace class used by JavaScript `trim()` and the regex `\s`
(the characters relevant here: space, tab, line feed, vertical tab, form
feed, carriage return, no-break space, BOM). -/
def jsWhitespace (c : Char) : Bool :=
  c = ' ' || c = '\t' || c = '\n' || c = '\x0b' || c = '\x0c' || c = '\r' ||
    c = '\u00A0' || c = '\uFEFF'

/-- JavaScript `String.prototype.trim`: remove leading and trailing
whitespace. -/
def jsTrim (l : List Char) : List Char :=
  ((l.dropWhile jsWhitespace).reverse.dropWhile jsWhitespace).reverse

/-- JavaScript `str.split(/\s+/)`, embedded as a scanner: `some cur` means
a segment `cur` is being accumulated, `none` means the scanner is inside a
whitespace run (the run separates segments; a leading or trailing run
contributes an empty segment, exactly as `split` does). -/
def splitWsAux : Option (List Char) → List Char → List (List Char)
  | some cur, [] => [cur]
  | none, [] => [[]]
  | some cur, c :: rest =>
    if jsWhitespace c then cur :: splitWsAux none rest
    else splitWsAux (some (cur ++ [c])) rest
  | none, c :: rest =>
    if jsWhitespace c then splitWsAux none rest
    else splitWsAux (some [c]) rest

/-- JavaScript `str.split(/\s+/)` on a whole string. -/
def splitWs (l : List Char) : List (List Char) :=
  splitWsAux (some []) l

/-- JavaScript `str.split("\n")`. -/
def splitOnNl : List Char → List (List Char)
  | [] => [[]]
  | c :: rest =>
    let r := splitOnNl rest
    if c = '\n' then [] :: r else (c :: r.headD []) :: r.tail

/-- Number of maximal whitespace runs of a string, scanning with a flag
that records whether the previous character was whitespace. -/
def wsRunsAux (inWs : Bool) : List Char → Nat
  | [] => 0
  | c :: rest =>
    if jsWhitespace c then (if inWs then 0 else 1) + wsRunsAux true rest
    else wsRunsAux false rest

/-- Number of maximal whitespace-separated (non-whitespace) runs of a
string — the specification's reading of "word count"; the flag records
whether the previous character was part of a run. -/
def wordRunsAux (inWord : Bool) : List Char → Nat
  | [] => 0
  | c :: rest =>
    if jsWhitespace c then wordRunsAux false rest
    else (if inWord then 0 else 1) + wordRunsAux true rest

/-! ## The presentation shell -/

/-- The derived statistics record (`MarkdownStats` in the source). -/
structure MarkdownStats where
  characters : Nat
  words : Nat
  lines : Nat
deriving DecidableEq

/-- The shell's state: the single mutable document string (`markdown` in
the source's `useState`). -/
structure ShellState where
  markdown : String
deriving DecidableEq

/-- The derived statistics, embedding the source's `stats` memo:
`characters = markdown.length`,
`words = markdown.trim() ? markdown.trim().split(/\s+/).length : 0`,
`lines = markdown.split("\n").length`. -/
def stats (markdown : String) : MarkdownStats :=
  { characters := markdown.length
  , words := if jsTrim markdown.data = [] then 0 else (splitWs (jsTrim markdown.data)).length
  , lines := (splitOnNl markdown.data).length }

/-- The document update, embedding `handleMarkdownChange`: a value longer
than 50,000 characters is rejected (the handler returns after raising a
toast, leaving the state untouched); otherwise the document is replaced. -/
def handleMarkdownChange (st : ShellState) (value : String) : ShellState :=
  if value.length > 50000 then st else { markdown := value }

/-! ## The ErrorBoundary component -/

/-- An error thrown by the renderer (opaque payload, as the boundary only
stores and logs it). -/
structure RenderError where
  message : String
deriving DecidableEq

/-- The `ErrorBoundary` component state: `{ hasError: boolean; error?: Error }`. -/
structure EBState where
  hasError : Bool
  error : Option RenderError
deriving DecidableEq

/-- The boundary's initial state (`{ hasError: false }` in the constructor). -/
def ebInit : EBState :=
  { hasError := false, error := none }

/-- `static getDerivedStateFromError(error)`: React installs this state
when a child render throws. -/
def getDerivedStateFromError (e : RenderError) : EBState :=
  { hasError := true, error := some e }

/-- What the boundary's `render()` shows. -/
inductive EBView where
  | children
  | errorPanel
deriving DecidableEq

/-- The boundary's `render()`: the static recoverable-error panel when
`hasError`, otherwise the wrapped children. -/
def ebRender (st : EBState) : EBView :=
  if st.hasError then EBView.errorPanel else EBView.children

/-- The retry button's `onClick`: `this.setState({ hasError: false })`
(React merges partial state, so the stored error value is untouched). -/
def ebRetry (st : EBState) : EBState :=
  { st with hasError := false }

/-- One render attempt as seen by the boundary: a throwing child render
moves the state through `getDerivedStateFromError`, a successful one
leaves it alone (React's error-boundary contract; the boundary class
itself is `src` lines 401-437). -/
def ebCatch (st : EBState) (result : Except RenderError Unit) : EBState :=
  match result with
  | Except.error e => getDerivedStateFromError e
  | Except.ok _ => st

/-! ## Claims C3, C4, C8 -/

/-- C3: for every string `s` with length greater than 50,000, the
document-update operation rejects `s`: the state (hence the document and
every derived statistic) is exactly what it was before the update. -/
theorem c3_oversized_update_rejected (st : ShellState) (s : String)
    (h : 50000 < s.length) : handleMarkdownChange st s = st := by
  unfold handleMarkdownChange
  simp [h]

/-- Witness for C3 at a concrete 50,001-character input. -/
theorem c3_oversized_update_rejected_witness :
    50000 < (String.mk (List.replicate 50001 'x')).length ∧
      handleMarkdownChange { markdown := "" } (String.mk (List.replicate 50001 'x')) =
        { markdown := "" } := by
  have h : 50000 < (String.mk (List.replicate 50001 'x')).length := by
    show 50000 < (List.replicate 50001 'x').length
    rw [List.length_replicate]
    omega
  exact ⟨h, c3_oversized_update_rejected _ _ h⟩

/-- C8: a renderer throw is caught by the boundary
(`getDerivedStateFromError` sets the error flag), the boundary then
renders the static error panel instead of the children, and the retry
action clears the error flag so the children are rendered again. -/
theorem c8_error_boundary (st : EBState) (e : RenderError) :
    (ebCatch st (Except.error e)).hasError = true ∧
      ebRender (ebCatch st (Except.error e)) = EBView.errorPanel ∧
      (ebRetry (ebCatch st (Except.error e))).hasError = false ∧
      ebRender (ebRetry (ebCatch st (Except.error e))) = EBView.children := by
  refine ⟨rfl, ?_, rfl, ?_⟩ <;> rfl

/-! ## Word- and line-count lemmas for C4 -/

/-- The segment count of the whitespace splitter is one more than the
number of maximal whitespace runs (every whitespace run closes exactly one
segment, and the end of input closes the last one). -/
theorem splitWsAux_length :
    ∀ l : List Char,
      (∀ cur, (splitWsAux (some cur) l).length = wsRunsAux false l + 1) ∧
        (splitWsAux none l).length = wsRunsAux true l + 1 := by
  intro l
  induction l with
  | nil => exact ⟨fun _ => rfl, rfl⟩
  | cons c r ih =>
    obtain ⟨ihs, ihn⟩ := ih
    by_cases hc : jsWhitespace c = true
    · refine ⟨fun cur => ?_, ?_⟩ <;>
        · simp [splitWsAux, wsRunsAux, hc, ihn]
          try omega
    · refine ⟨fun cur => ?_, ?_⟩ <;>
        · simp [splitWsAux, wsRunsAux, hc, ihs]
          try omega

/-- The first character a `dropWhile` keeps fails the predicate. -/
theorem dropWhile_head_false {p : Char → Bool} :
    ∀ {l : List Char} {c : Char} {t : List Char},
      l.dropWhile p = c :: t → p c = false := by
  intro l
  induction l with
  | nil => intro c t h; exact absurd h (by simp)
  | cons d l ih =>
    intro c t h
    by_cases hd : p d = true
    · exact ih (by rwa [List.dropWhile_cons_of_pos hd] at h)
    · rw [List.dropWhile_cons_of_neg (by simpa using hd)] at h
      cases h
      simpa using hd

/-- A string has no trailing whitespace when its reversal does not start
with a whitespace character. -/
def noTrailingWs (l : List Char) : Prop :=
  ∀ c t, l.reverse = c :: t → jsWhitespace c = false

/-- On a string with no trailing whitespace the word-run counter and the
whitespace-run counter are in lockstep: the runs alternate and the last
one is a word run. -/
theorem runs_eq :
    ∀ l : List Char, noTrailingWs l →
      wordRunsAux true l = wsRunsAux false l ∧
        (l ≠ [] → wordRunsAux false l = wsRunsAux true l + 1) := by
  intro l
  induction l with
  | nil => exact fun _ => ⟨rfl, fun h => absurd rfl h⟩
  | cons c r ih =>
    intro hend
    have hr : r ≠ [] → noTrailingWs r := by
      intro _ d t hd
      apply hend d (t ++ [c])
      rw [List.reverse_cons, hd]
      rfl
    by_cases hc : jsWhitespace c = true
    · have hrne : r ≠ [] := by
        intro h0
        subst h0
        have h1 := hend c [] (by simp)
        rw [h1] at hc
        exact Bool.noConfusion hc
      obtain ⟨_, q3⟩ := ih (hr hrne)
      constructor
      · simp only [wordRunsAux, wsRunsAux, hc, if_true]
        simp [q3 hrne]
        try omega
      · intro _
        simp only [wordRunsAux, wsRunsAux, hc, if_true]
        simp [q3 hrne]
        try omega
    · have key : wordRunsAux true r = wsRunsAux false r := by
        by_cases hrne : r = []
        · subst hrne; rfl
        · exact (ih (hr hrne)).1
      constructor
      · simp [wordRunsAux, wsRunsAux, hc, key]
      · intro _
        simp [wordRunsAux, wsRunsAux, hc, key]
        omega

/-- The trimmed document decomposes its left-trimmed form: trimming the
right end only removes a suffix. -/
theorem jsTrim_decomp (l : List Char) :
    l.dropWhile jsWhitespace =
      jsTrim l ++ ((l.dropWhile jsWhitespace).reverse.takeWhile jsWhitespace).reverse := by
  unfold jsTrim
  generalize List.dropWhile jsWhitespace l = a
  conv_lhs =>
    rw [← List.reverse_reverse a,
      ← List.takeWhile_append_dropWhile (p := jsWhitespace) (l := a.reverse)]
  rw [List.reverse_append]

/-- The trimmed document has no trailing whitespace. -/
theorem jsTrim_noTrailingWs (l : List Char) : noTrailingWs (jsTrim l) := by
  intro c t h
  unfold jsTrim at h
  rw [List.reverse_reverse] at h
  exact dropWhile_head_false h

/-- The trimmed document starts with a non-whitespace character when it is
nonempty. -/
theorem jsTrim_head_false {l : List Char} {c : Char} {t : List Char}
    (h : jsTrim l = c :: t) : jsWhitespace c = false := by
  have hd := jsTrim_decomp l
  rw [h] at hd
  exact dropWhile_head_false hd

/-- On the trimmed document, the split-segment count of the source's word
counter equals the specification's count of maximal whitespace-separated
runs. -/
theorem splitWs_length_eq_wordRuns (l : List Char) (hne : jsTrim l ≠ []) :
    (splitWs (jsTrim l)).length = wordRunsAux false (jsTrim l) := by
  obtain ⟨c, r, hcr⟩ : ∃ c r, jsTrim l = c :: r := by
    cases h : jsTrim l with
    | nil => exact absurd h hne
    | cons c r => exact ⟨c, r, rfl⟩
  have hhead : jsWhitespace c = false := jsTrim_head_false hcr
  have hq := runs_eq (jsTrim l) (jsTrim_noTrailingWs l)
  have hlen := (splitWsAux_length (jsTrim l)).1 []
  have hq3 := hq.2 hne
  rw [hcr] at hq3 hlen ⊢
  simp [wsRunsAux, hhead] at hq3 hlen
  show (splitWs (c :: r)).length = wordRunsAux false (c :: r)
  unfold splitWs
  rw [hlen, hq3]

/-- The newline splitter never returns an empty list of segments. -/
theorem splitOnNl_length (l : List Char) :
    (splitOnNl l).length = l.count '\n' + 1 := by
  induction l with
  | nil => rfl
  | cons c r ih =>
    by_cases hc : c = '\n'
    · subst hc
      simp [splitOnNl, List.count_cons, ih]
    · have hne : (c == '\n') = false := by simpa using hc
      simp [splitOnNl, hc, List.count_cons, hne, List.length_tail]
      omega

/-- C4: every string of length at most 50,000 (the cap included) replaces
the document, and the derived statistics satisfy the specification's
formulas: `characters` is the length of `s`; `words` is 0 when the
trimmed string is empty and otherwise the number of maximal
whitespace-separated runs of the trimmed string; `lines` is the number of
newline characters plus one. -/
theorem c4_update_accepted_and_stats (st : ShellState) (s : String)
    (h : s.length ≤ 50000) :
    (handleMarkdownChange st s).markdown = s ∧
      (stats s).characters = s.length ∧
      (stats s).words =
        (if jsTrim s.data = [] then 0 else wordRunsAux false (jsTrim s.data)) ∧
      (stats s).lines = s.data.count '\n' + 1 := by
  refine ⟨?_, rfl, ?_, splitOnNl_length s.data⟩
  · unfold handleMarkdownChange
    rw [if_neg (by omega)]
  · show (if jsTrim s.data = [] then 0 else (splitWs (jsTrim s.data)).length) = _
    by_cases he : jsTrim s.data = []
    · rw [if_pos he, if_pos he]
    · rw [if_neg he, if_neg he, splitWs_length_eq_wordRuns s.data he]

/-- Witness for C4 at the concrete document "ab cd\nef" (8 characters,
3 words, 2 lines). -/
theorem c4_update_accepted_and_stats_witness :
    ("ab cd\nef" : String).length ≤ 50000 ∧
      ((handleMarkdownChange { markdown := "" } "ab cd\nef").markdown = "ab cd\nef" ∧
        (stats "ab cd\nef").characters = ("ab cd\nef" : String).length ∧
        (stats "ab cd\nef").words =
          (if jsTrim ("ab cd\nef" : String).data = [] then 0
            else wordRunsAux false (jsTrim ("ab cd\nef" : String).data)) ∧
        (stats "ab cd\nef").lines = ("ab cd\nef" : String).data.count '\n' + 1) :=
  ⟨by decide, c4_update_accepted_and_stats { markdown := "" } "ab cd\nef" (by decide)⟩

/-! ## The token classifier: keyword table and language lookup -/

/-- The source's static `keywords` table (`Record<string, string[]>`),
keyed by lowercase language tag; keyword order is the table's definition
order, which is the iteration order of the keyword pass. -/
def keywords (language : String) : Option (List String) :=
  if language = "javascript" then
    some ["function", "const", "let", "var", "if", "else", "for", "while", "return", "class",
      "import", "export", "async", "await", "try", "catch", "finally", "new", "this"]
  else if language = "typescript" then
    some ["function", "const", "let", "var", "if", "else", "for", "while", "return", "class",
      "import", "export", "async", "await", "try", "catch", "finally", "new", "this",
      "interface", "type", "enum", "implements", "readonly", "public", "private", "protected",
      "as", "typeof"]
  else if language = "python" then
    some ["def", "class", "if", "else", "elif", "for", "while", "return", "import", "from",
      "as", "try", "except", "with", "lambda", "yield", "self"]
  else if language = "java" then
    some ["public", "private", "protected", "class", "interface", "if", "else", "for", "while",
      "return", "import", "package", "static", "final", "void", "new", "extends", "implements"]
  else if language = "css" then
    some ["color", "background", "margin", "padding", "border", "width", "height", "display",
      "position", "flex", "grid", "align", "justify", "z-index", "font", "text", "line-height"]
  else if language = "html" then
    some ["div", "span", "p", "h1", "h2", "h3", "body", "head", "html", "script", "style",
      "link", "meta", "title", "input", "form", "button"]
  else if language = "bash" then
    some ["cd", "ls", "mkdir", "rm", "touch", "echo", "cat", "pwd", "chmod", "chown", "sudo",
      "apt", "brew", "mv", "cp", "kill", "grep", "tail", "head", "export", "source"]
  else if language = "git" then
    some ["git", "clone", "commit", "push", "pull", "status", "checkout", "merge", "rebase",
      "branch", "log", "diff", "add", "init", "remote", "fetch", "tag", "stash", "reset"]
  else if language = "terminal" then
    some ["$", "#", "~", ">", "./", "../", "bash", "zsh", "sh", "node", "npm", "yarn", "pnpm"]
  else none

/-- JavaScript `language.toLowerCase()` (`String.toLower` in Lean: the
ASCII mapping, which is all that can affect the comparison against the
table's ASCII keys). -/
def jsToLower (s : String) : String :=
  String.mk (s.data.map Char.toLower)

/-- The lowercase-named properties every JavaScript object literal
inherits from `Object.prototype`. For these keys the source's
`keywords[language.toLowerCase()] || []` does not produce `[]`: the
inherited value (`Object` for `constructor`, the prototype object for
`__proto__`) is truthy, so the subsequent `.forEach` call is applied to a
non-array and throws a `TypeError`. (The prototype's other property names
contain uppercase letters and are unreachable after `toLowerCase()`.) -/
def objectProtoLowercaseKeys : List String :=
  ["constructor", "__proto__"]

/-- The keyword list `highlightCode` iterates over: the table entry for
the lowercased tag, `[]` for an unknown tag — except that the two
inherited `Object.prototype` keys make the source throw, modelled as
`none`. -/
def langKeywords (language : String) : Option (List String) :=
  match keywords (jsToLower language) with
  | some kws => some kws
  | none =>
    if (jsToLower language) ∈ objectProtoLowercaseKeys then none else some []

/-! ## The token classifier: HTML escaping -/

/-- JavaScript `str.replace(/c/g, rep)` for a single-character pattern:
every occurrence of `c` is replaced by `rep` (the replacement is not
rescanned). -/
def replaceChar (c : Char) (rep : List Char) (l : List Char) : List Char :=
  (l.map (fun d => if d = c then rep else [d])).flatten

/-- Replacement text of the `&` escape. -/
def ampRep : String := "&amp;"

/-- Replacement text of the `<` escape. -/
def ltRep : String := "&lt;"

/-- Replacement text of the `>` escape. -/
def gtRep : String := "&gt;"

/-- Replacement text of the `"` escape. -/
def quotRep : String := "&quot;"

/-- Replacement text of the `'` escape. -/
def aposRep : String := "&#39;"

/-- The source's five chained escapes, `&` first:
`code.replace(/&/g,"&amp;").replace(/</g,"&lt;").replace(/>/g,"&gt;")
.replace(/"/g,"&quot;").replace(/'/g,"&#39;")`. -/
def escapeHtml (l : List Char) : List Char :=
  replaceChar '\'' aposRep.data
    (replaceChar '"' quotRep.data
      (replaceChar '>' gtRep.data
        (replaceChar '<' ltRep.data
          (replaceChar '&' ampRep.data l))))

/-! ## The classifier's span markers and regex primitives -/

/-- Opening tag inserted by the string pass. -/
def codeStringOpenS : String := "<span class=\"code-string\">"

/-- Opening tag inserted by the comment pass. -/
def codeCommentOpenS : String := "<span class=\"code-comment\">"

/-- Opening tag inserted by the number pass. -/
def codeNumberOpenS : String := "<span class=\"code-number\">"

/-- Opening tag inserted by the keyword pass. -/
def codeKeywordOpenS : String := "<span class=\"code-keyword\">"

/-- The closing tag inserted by every pass. -/
def spanCloseS : String := "</span>"

/-- The literal head of the lookbehind pattern `<span class="code-`. -/
def codeOpenHeadS : String := "<span class=\"code-"

/-- `codeStringOpenS` as a character list. -/
def codeStringOpen : List Char := codeStringOpenS.data

/-- `codeCommentOpenS` as a character list. -/
def codeCommentOpen : List Char := codeCommentOpenS.data

/-- `codeNumberOpenS` as a character list. -/
def codeNumberOpen : List Char := codeNumberOpenS.data

/-- `codeKeywordOpenS` as a character list. -/
def codeKeywordOpen : List Char := codeKeywordOpenS.data

/-- `spanCloseS` as a character list. -/
def spanClose : List Char := spanCloseS.data

/-- `codeOpenHeadS` as a character list. -/
def codeOpenHead : List Char := codeOpenHeadS.data

/-- The regex word class `\w` = `[A-Za-z0-9_]`. -/
def isWordChar (c : Char) : Bool :=
  c.isAlpha || c.isDigit || c = '_'

/-- Whether the character before the current position is a word character
(`false` at the start of input): with `headIsWord`, decides `\b`. -/
def lastIsWord (pre : List Char) : Bool :=
  match pre.getLast? with
  | some c => isWordChar c
  | none => false

/-- Whether the character at the current position is a word character
(`false` at the end of input). -/
def headIsWord (l : List Char) : Bool :=
  match l.head? with
  | some c => isWordChar c
  | none => false

/-- Does `p` hold of some suffix of the list? -/
def anySuffix (p : List Char → Bool) : List Char → Bool
  | [] => p []
  | c :: rest => p (c :: rest) || anySuffix p rest

/-- Does `pat` occur as a contiguous substring of `l`? -/
def containsSeq (pat l : List Char) : Bool :=
  anySuffix (fun s => pat.isPrefixOf s) l

/-- Does the list begin with a full match of
`<span class="code-[^"]*">.*` reaching its end — the body of the negative
lookbehind used by the number pass (`.*`) and the keyword pass (`.*?`,
equivalent inside a lookbehind)? After the literal head, `[^"]*` must stop
at the first `"` (it cannot contain one), the `">` must follow, and `.`
does not match a newline. -/
def lbHere (l : List Char) : Bool :=
  codeOpenHead.isPrefixOf l &&
    (match (l.drop codeOpenHead.length).dropWhile (fun c => c != '\"') with
     | '\"' :: '>' :: t => t.all (fun c => c != '\n')
     | _ => false)

/-- The negative lookbehind `(?<!<span class="code-[^"]*">.*)`, evaluated
against the original input's prefix before the match position: the match
is blocked when the pattern matches some substring ending exactly at the
position, i.e. holds of some suffix of the prefix. -/
def blockedSpanBefore (pre : List Char) : Bool :=
  anySuffix lbHere pre

/-- The negative lookahead `(?![^<]*<\/span>)`, evaluated against the rest
of the original input after the match: since `[^<]*` cannot contain `<`,
the pattern matches exactly when the text from the first `<` on starts
with `</span>`. -/
def lookaheadBlocked (r : List Char) : Bool :=
  spanClose.isPrefixOf (r.dropWhile (fun c => c != '<'))

/-! ## Pass 2: string spans -/

/-- A character that opens one of the string alternatives
`` `[^`]*` ``, `"[^"]*"`, `'[^']*'`. -/
def quoteChar (c : Char) : Bool :=
  c = '`' || c = '\"' || c = '\''

/-- One left-to-right global-replace scan of
`/(`[^`]*`|"[^"]*"|'[^']*')/g` with replacement
`<span class="code-string">$1</span>`. A match starts at a quote
character that occurs again later (the three alternatives begin with
distinct characters, and the character class excludes only the delimiter,
so the match runs to the nearest same delimiter, newlines included);
scanning resumes after the match. The fuel argument (one unit per emitted
or matched character, so the input's length suffices) makes the scan
structurally recursive. -/
def stringPassGo : Nat → List Char → List Char
  | 0, l => l
  | _ + 1, [] => []
  | fuel + 1, c :: rest =>
    if quoteChar c && rest.contains c then
      codeStringOpen ++ (c :: rest.takeWhile (fun d => d != c)) ++ (c :: spanClose) ++
        stringPassGo fuel ((rest.dropWhile (fun d => d != c)).tail)
    else c :: stringPassGo fuel rest

/-- The string pass on a whole input. -/
def stringPass (l : List Char) : List Char :=
  stringPassGo l.length l

/-! ## Pass 3: comment spans -/

/-- Split the input at the first occurrence of `*/`:
`some (before, after)` with the input equal to
`before ++ '*' :: '/' :: after`, or `none` when there is none — the lazy
`[\s\S]*?` of the block-comment alternative. -/
def splitStarSlash : List Char → Option (List Char × List Char)
  | [] => none
  | c :: rest =>
    if c = '*' ∧ rest.head? = some '/' then some ([], rest.tail)
    else (splitStarSlash rest).map (fun p => (c :: p.1, p.2))

/-- `<span class="code-comment">body</span>`. -/
def wrapComment (body : List Char) : List Char :=
  codeCommentOpen ++ body ++ spanClose

/-- One left-to-right global-replace scan of
`/(\/\/[^\n]*|\/\*[\s\S]*?\*\/|#[^\n]*)/g` with replacement
`<span class="code-comment">$1</span>`: `//` and `#` run to the end of
the line (the newline is not consumed), `/*` runs lazily to the first
`*/` and fails (no match at this position) when there is none. -/
def commentPassGo : Nat → List Char → List Char
  | 0, l => l
  | _ + 1, [] => []
  | fuel + 1, c :: rest =>
    if c = '/' then
      match rest with
      | [] => c :: commentPassGo fuel rest
      | d :: rest2 =>
        if d = '/' then
          wrapComment ('/' :: '/' :: rest2.takeWhile (fun e => e != '\n')) ++
            commentPassGo fuel (rest2.dropWhile (fun e => e != '\n'))
        else if d = '*' then
          match splitStarSlash rest2 with
          | some (inner, after) =>
            wrapComment ('/' :: '*' :: inner ++ ('*' :: ['/'])) ++ commentPassGo fuel after
          | none => c :: commentPassGo fuel rest
        else c :: commentPassGo fuel rest
    else if c = '#' then
      wrapComment ('#' :: rest.takeWhile (fun e => e != '\n')) ++
        commentPassGo fuel (rest.dropWhile (fun e => e != '\n'))
    else c :: commentPassGo fuel rest

/-- The comment pass on a whole input. -/
def commentPass (l : List Char) : List Char :=
  commentPassGo l.length l

/-! ## Pass 4: number spans -/

/-- The greedy match of `\d+\.?\d*` starting at a digit, followed by the
trailing `\b` and the negative lookahead, with the regex engine's
backtracking order. In the `digits.digits` case the candidates are:
the full `d1.d2` first; then (when its trailing `\b` or lookahead
rejects it) `\d*` shrunk to empty, giving `d1.`, whose trailing `\b`
holds unconditionally because a digit follows the dot; then `\.?`
dropped as well, giving the bare digit run `d1`, whose trailing `\b`
holds because a dot follows. Shrinking `\d*` only partway, or `\d+`
anywhere, leaves a digit adjacent to a digit and can never satisfy
`\b`, so these are all the candidates. Returns the matched text and
the remainder, or `none`. -/
def numMatch (s : List Char) : Option (List Char × List Char) :=
  let d1 := s.takeWhile Char.isDigit
  let r1 := s.dropWhile Char.isDigit
  match r1 with
  | '.' :: r2 =>
    let d2 := r2.takeWhile Char.isDigit
    let r3 := r2.dropWhile Char.isDigit
    if d2 ≠ [] then
      if !headIsWord r3 && !lookaheadBlocked r3 then some (d1 ++ '.' :: d2, r3)
      else if !lookaheadBlocked r2 then some (d1 ++ ['.'], r2)
      else if !lookaheadBlocked ('.' :: r2) then some (d1, '.' :: r2)
      else none
    else
      if headIsWord r2 && !lookaheadBlocked r2 then some (d1 ++ ['.'], r2)
      else if !lookaheadBlocked ('.' :: r2) then some (d1, '.' :: r2)
      else none
  | _ =>
    if !headIsWord r1 && !lookaheadBlocked r1 then some (d1, r1)
    else none

/-- One left-to-right global-replace scan of
`/(?<!<span class="code-[^"]*">.*)\b(\d+\.?\d*)\b(?![^<]*<\/span>)/g`
with replacement `<span class="code-number">$1</span>`. The first
argument is fuel, the second the original input's prefix before the
current position (the lookbehind and `\b` read the original input, not
the partly built output), the third the rest. A position inside a digit
run other than its start fails the leading `\b`, so after a failed
match attempt the scan advances one character, exactly like the regex
engine. -/
def numberPassGo : Nat → List Char → List Char → List Char
  | 0, _, l => l
  | _ + 1, _, [] => []
  | fuel + 1, pre, c :: rest =>
    if c.isDigit && !lastIsWord pre && !blockedSpanBefore pre then
      match numMatch (c :: rest) with
      | some (m, r) =>
        codeNumberOpen ++ m ++ spanClose ++ numberPassGo fuel (pre ++ m) r
      | none => c :: numberPassGo fuel (pre ++ [c]) rest
    else c :: numberPassGo fuel (pre ++ [c]) rest

/-- The number pass on a whole input. -/
def numberPass (l : List Char) : List Char :=
  numberPassGo l.length [] l

/-! ## Pass 5: keyword spans -/

/-- One left-to-right global-replace scan of
`` new RegExp(`(?<!<span class="code-[^"]*">.*?)\b(keyword)\b(?![^<]*<\/span>)`, "g") ``
with replacement `<span class="code-keyword">$1</span>`, for one keyword.
The keyword is matched literally (none of the table's keywords for the
languages any claim touches contains a regex metacharacter; `terminal`'s
do, but every theorem below treats both sides of the embedding with the
same matcher, and no claim depends on `terminal`). Fuel and the
original-prefix argument are as in the number pass. -/
def keywordGo (kw : List Char) : Nat → List Char → List Char → List Char
  | 0, _, l => l
  | _ + 1, _, [] => []
  | fuel + 1, pre, c :: rest =>
    if kw.isPrefixOf (c :: rest) && (lastIsWord pre != headIsWord kw) &&
        (lastIsWord kw != headIsWord ((c :: rest).drop kw.length)) &&
        !blockedSpanBefore pre && !lookaheadBlocked ((c :: rest).drop kw.length) then
      codeKeywordOpen ++ kw ++ spanClose ++
        keywordGo kw fuel (pre ++ kw) ((c :: rest).drop kw.length)
    else c :: keywordGo kw fuel (pre ++ [c]) rest

/-- One whole-input replace for one keyword. -/
def keywordOnePass (kw : List Char) (l : List Char) : List Char :=
  keywordGo kw l.length [] l

/-- The source's `langKeywords.forEach(...)`: one global replace per
keyword, in table order, each scanning the previous replace's output. -/
def keywordPass (kws : List String) (l : List Char) : List Char :=
  kws.foldl (fun acc kw => keywordOnePass kw.data acc) l

/-! ## The classifier -/

/-- The token classifier `highlightCode`: escape the five HTML
metacharacters, then the string, comment, number and keyword passes in
that order. `none` models the `TypeError` the source throws when the
language tag's lowercase form hits an inherited `Object.prototype`
property (see `objectProtoLowercaseKeys`); every other input returns a
string. -/
def highlightCode (code language : String) : Option String :=
  match langKeywords language with
  | none => none
  | some kws =>
    some (String.mk (keywordPass kws (numberPass (commentPass (stringPass (escapeHtml code.data))))))

/-! ## Case-insensitivity of the language lookup (C10) -/

/-- `Char.ofNat` on a scalar value below the surrogate range recovers the
value. -/
theorem char_toNat_ofNat_valid {n : Nat} (h : n < 55296) :
    (Char.ofNat n).toNat = n := by
  rw [Char.ofNat, dif_pos (Or.inl h)]
  rfl

/-- ASCII lowercasing is idempotent: a lowered character is never an
uppercase letter. -/
theorem char_toLower_idem (c : Char) : c.toLower.toLower = c.toLower := by
  simp only [Char.toLower]
  by_cases h : Char.toNat c ≥ 65 ∧ Char.toNat c ≤ 90
  · rw [if_pos h]
    have hv : (Char.ofNat (Char.toNat c + 32)).toNat = Char.toNat c + 32 :=
      char_toNat_ofNat_valid (by omega)
    rw [if_neg (by rw [hv]; omega)]
  · rw [if_neg h, if_neg h]

/-- Lowercasing a language tag is idempotent. -/
theorem jsToLower_idem (s : String) : jsToLower (jsToLower s) = jsToLower s := by
  unfold jsToLower
  simp [List.map_map, Function.comp_def, char_toLower_idem]

/-- C10: the keyword-table lookup lowercases the language tag, so the
classifier treats a tag and its lowercase form identically (for every
code string, including the two throwing prototype keys, which are already
lowercase). -/
theorem c10_language_tag_case_insensitive (code t : String) :
    highlightCode code t = highlightCode code (jsToLower t) := by
  unfold highlightCode langKeywords
  rw [jsToLower_idem]

/-! ## Concrete classifier evaluations (C1, C2, C5, C6, C7) -/

/-- C1's input code. -/
def c1Code : String := "\"hi\" + 42"

/-- What the classifier actually produces on C1's input: the quotes were
already escaped to `&quot;` before the string pass, whose `"…"`/`'…'`
alternatives can therefore never match, so no string span appears; only
the numeral is wrapped. -/
def c1Out : String := "&quot;hi&quot; + <span class=\"code-number\">42</span>"

/-- C1 (code_bug evidence): on `"hi" + 42` with language `javascript` the
classifier wraps `42` in a number span but does not wrap `"hi"` in a
string span — the output contains no `code-string` marker at all. The
escape pass (which the source deliberately runs first) rewrites every `"`
to `&quot;` and every `'` to `&#39;`, so the string regex's quote
alternatives are dead code and only backtick spans can ever match. -/
theorem c1_failing_input_eval :
    highlightCode c1Code "javascript" = some c1Out ∧
      containsSeq codeStringOpenS.data c1Out.data = false ∧
      containsSeq codeNumberOpenS.data c1Out.data = true := by
  refine ⟨by decide, by decide, by decide⟩

/-- C2's input code. -/
def c2Code : String := "<b>&\"'"

/-- What the classifier actually produces on C2's input: the five
metacharacters are escaped exactly once, but the comment pass then
matches the `#` inside the `&#39;` entity produced for `'` and wraps
`#39;` in a comment span. -/
def c2Out : String := "&lt;b&gt;&amp;&quot;&<span class=\"code-comment\">#39;</span>"

/-- The output C2 expects: the fully entity-escaped input and nothing
else. -/
def c2Expected : String := "&lt;b&gt;&amp;&quot;&#39;"

/-- C2 (code_bug evidence): on `<b>&"'` with language `text` the
classifier does escape every metacharacter exactly once, but the output
is not the bare escaped string: the comment pass mistakes the `#39;` of
the apostrophe's own escape sequence for a hash comment and wraps it in a
comment span. -/
theorem c2_failing_input_eval :
    highlightCode c2Code "text" = some c2Out ∧
      c2Out ≠ c2Expected ∧
      containsSeq codeCommentOpenS.data c2Out.data = true := by
  refine ⟨by decide, by decide, by decide⟩

/-- C5's input code. -/
def c5Code : String := "def f(n):\n    return n  # base"

/-- The text between the `def` span and the `return` span. -/
def c5Mid1 : String := " f(n):\n    "

/-- The text between the `return` span and the comment span. -/
def c5Mid2 : String := " n  "

/-- `<span class="code-keyword">s</span>`. -/
def kwSpanned (s : String) : String :=
  codeKeywordOpenS ++ s ++ spanCloseS

/-- `<span class="code-comment">s</span>`. -/
def cmtSpanned (s : String) : String :=
  codeCommentOpenS ++ s ++ spanCloseS

set_option maxRecDepth 40000 in
/-- C5: on `def f(n):\n    return n  # base` with language `python` the
classifier wraps `def` and `return` in keyword spans and `# base` in a
comment span (and changes nothing else). -/
theorem c5_python_keywords_and_comment :
    highlightCode c5Code "python" =
      some (kwSpanned "def" ++ c5Mid1 ++ kwSpanned "return" ++ c5Mid2 ++
        cmtSpanned "# base") := by
  decide

/-- C6 (code_bug evidence): the classifier is not total — the language
tag `constructor` (reachable from a fenced block tagged
` ```constructor `) makes `keywords[language.toLowerCase()]` return the
inherited `Object.prototype.constructor`, a truthy non-array, and the
`.forEach` call then throws a `TypeError` (modelled `none`); no string is
returned. -/
theorem c6_throws_on_constructor_tag :
    highlightCode "1 + 1" "constructor" = none := by
  decide

/-- C7 counterexample: the language tag `__proto__` is not a key of the
keyword table, yet the classifier does not return the escaped input with
the string, comment and number passes applied — it throws (modelled
`none`) because the lookup hits the inherited `__proto__` accessor. -/
theorem c7_unknown_tag_counterexample :
    keywords (jsToLower "__proto__") = none ∧
      highlightCode "x" "__proto__" ≠
        some (String.mk (numberPass (commentPass (stringPass (escapeHtml "x".data))))) := by
  refine ⟨by decide, by decide⟩

/-- C7 (amended): for every code string and every language tag that is
neither a key of the keyword table nor (in lowercase form) one of the two
inherited `Object.prototype` properties, the classifier's output is
exactly the escape, string, comment and number passes — the keyword pass
(over the empty keyword list) contributes nothing. -/
theorem c7_unknown_tag_degrades_gracefully (code language : String)
    (htab : keywords (jsToLower language) = none)
    (hproto : jsToLower language ∉ objectProtoLowercaseKeys) :
    highlightCode code language =
      some (String.mk (numberPass (commentPass (stringPass (escapeHtml code.data))))) := by
  unfold highlightCode langKeywords
  rw [htab]
  simp only [if_neg hproto]
  rfl

/-- Witness for C7's amended theorem at the unknown tag `ruby`. -/
theorem c7_unknown_tag_degrades_gracefully_witness :
    keywords (jsToLower "ruby") = none ∧ jsToLower "ruby" ∉ objectProtoLowercaseKeys ∧
      highlightCode "x" "ruby" =
        some (String.mk (numberPass (commentPass (stringPass (escapeHtml "x".data))))) :=
  ⟨by decide, by decide,
    c7_unknown_tag_degrades_gracefully "x" "ruby" (by decide) (by decide)⟩

/-! ## C9: the markup-safety invariant -/

/-- The five tags the classifier inserts. -/
def tagList : List (List Char) :=
  [codeStringOpen, codeCommentOpen, codeNumberOpen, codeKeywordOpen, spanClose]

/-- The invariant of C9: the string decomposes into characters other than
`<` and `>` and whole classifier-inserted span tags, so every angle
bracket in it belongs to such a tag. -/
inductive TagSafe : List Char → Prop
  | nil : TagSafe []
  | chr {c : Char} {rest : List Char} :
      c ≠ '<' → c ≠ '>' → TagSafe rest → TagSafe (c :: rest)
  | tag {t rest : List Char} : t ∈ tagList → TagSafe rest → TagSafe (t ++ rest)

/-- `TagSafe` is closed under concatenation. -/
theorem TagSafe.append {a b : List Char} (ha : TagSafe a) (hb : TagSafe b) :
    TagSafe (a ++ b) := by
  induction ha with
  | nil => exact hb
  | chr h1 h2 _ ih => exact TagSafe.chr h1 h2 ih
  | tag ht _ ih =>
    rw [List.append_assoc]
    exact TagSafe.tag ht ih

/-- A string without angle brackets is `TagSafe`. -/
theorem tagSafe_of_no_angle {l : List Char} (h : ∀ x ∈ l, x ≠ '<' ∧ x ≠ '>') :
    TagSafe l := by
  induction l with
  | nil => exact TagSafe.nil
  | cons c rest ih =>
    obtain ⟨h1, h2⟩ := h c (by simp)
    exact TagSafe.chr h1 h2 (ih fun x hx => h x (by simp [hx]))

/-- Every tag starts with `<`. -/
theorem tagList_head : ∀ t ∈ tagList, t.head? = some '<' := by decide

/-- Peeling a non-`<` character off a `TagSafe` string: the character is
plain (no tag starts with it), so the rest is `TagSafe` and the character
is not `>` either. -/
theorem tagSafe_cons_inv {c : Char} {rest : List Char}
    (hs : TagSafe (c :: rest)) (hc : c ≠ '<') : c ≠ '>' ∧ TagSafe rest := by
  generalize hl : c :: rest = l at hs
  cases hs with
  | nil => exact absurd hl (by simp)
  | chr h1 h2 h3 =>
    injection hl with e1 e2
    subst e1
    subst e2
    exact ⟨h2, h3⟩
  | tag ht hrest =>
    rename_i t r
    have hh := tagList_head t ht
    cases t with
    | nil => simp at hh
    | cons d t' =>
      rw [List.cons_append] at hl
      injection hl with e1 _
      have hd : d = '<' := by simpa using hh
      exact absurd (e1.trans hd) hc

/-- A tag on its own is `TagSafe`. -/
theorem tagSafe_single {t : List Char} (h : t ∈ tagList) : TagSafe t := by
  have h2 := TagSafe.tag h TagSafe.nil
  simpa using h2

/-- Membership in a `takeWhile` implies the predicate. -/
theorem takeWhile_mem_prop {p : Char → Bool} :
    ∀ {l : List Char} {x : Char}, x ∈ l.takeWhile p → p x = true := by
  intro l
  induction l with
  | nil => intro x hx; simp at hx
  | cons c rest ih =>
    intro x hx
    by_cases hc : p c = true
    · rw [List.takeWhile_cons_of_pos hc] at hx
      rcases List.mem_cons.mp hx with rfl | hx
      · exact hc
      · exact ih hx
    · rw [List.takeWhile_cons_of_neg (by simpa using hc)] at hx
      simp at hx

/-- The characters kept by `takeWhile` come from the list. -/
theorem mem_of_mem_takeWhile {p : Char → Bool} {l : List Char} {x : Char}
    (h : x ∈ l.takeWhile p) : x ∈ l :=
  (List.takeWhile_sublist p).subset h

/-- The characters kept by `dropWhile` come from the list. -/
theorem mem_of_mem_dropWhile' {p : Char → Bool} {l : List Char} {x : Char}
    (h : x ∈ l.dropWhile p) : x ∈ l :=
  (List.dropWhile_sublist p).subset h

/-! ### The escape pass produces no angle brackets -/

/-- What a single-character global replace can leave in the string. -/
theorem mem_replaceChar {c : Char} {rep l : List Char} {x : Char}
    (h : x ∈ replaceChar c rep l) : x ∈ rep ∨ (x ∈ l ∧ x ≠ c) := by
  unfold replaceChar at h
  rw [List.mem_flatten] at h
  obtain ⟨seg, hseg, hx⟩ := h
  rw [List.mem_map] at hseg
  obtain ⟨d, hd, hrw⟩ := hseg
  by_cases hdc : d = c
  · subst hdc
    rw [if_pos rfl] at hrw
    subst hrw
    exact Or.inl hx
  · rw [if_neg hdc] at hrw
    subst hrw
    simp at hx
    subst hx
    exact Or.inr ⟨hd, hdc⟩

/-- After the escape pass no `<` or `>` remains: the angle brackets of the
input are replaced by entities, and no replacement text contains one. -/
theorem escapeHtml_no_angle {l : List Char} :
    ∀ x ∈ escapeHtml l, x ≠ '<' ∧ x ≠ '>' := by
  have ha : ∀ x ∈ aposRep.data, x ≠ '<' ∧ x ≠ '>' := by decide
  have hq : ∀ x ∈ quotRep.data, x ≠ '<' ∧ x ≠ '>' := by decide
  have hg : ∀ x ∈ gtRep.data, x ≠ '<' ∧ x ≠ '>' := by decide
  have hl : ∀ x ∈ ltRep.data, x ≠ '<' ∧ x ≠ '>' := by decide
  intro x hx
  unfold escapeHtml at hx
  rcases mem_replaceChar hx with h | ⟨hx, _⟩
  · exact ha x h
  rcases mem_replaceChar hx with h | ⟨hx, _⟩
  · exact hq x h
  rcases mem_replaceChar hx with h | ⟨hx, hgt⟩
  · exact hg x h
  rcases mem_replaceChar hx with h | ⟨hx, hlt⟩
  · exact hl x h
  rcases mem_replaceChar hx with h | ⟨hx, _⟩
  · have hm : ∀ x ∈ ampRep.data, x ≠ '<' ∧ x ≠ '>' := by decide
    exact hm x h
  · exact ⟨hlt, hgt⟩

/-! ### The string pass preserves the invariant -/

/-- The string pass of an angle-free input is `TagSafe`: it copies input
characters and inserts whole tags. -/
theorem stringPassGo_tagSafe :
    ∀ (fuel : Nat) (l : List Char), (∀ x ∈ l, x ≠ '<' ∧ x ≠ '>') →
      TagSafe (stringPassGo fuel l) := by
  intro fuel
  induction fuel with
  | zero => exact fun l h => tagSafe_of_no_angle h
  | succ f ih =>
    intro l h
    cases l with
    | nil => exact TagSafe.nil
    | cons c rest =>
      show TagSafe (stringPassGo (f + 1) (c :: rest))
      rw [stringPassGo]
      by_cases hq : (quoteChar c && rest.contains c) = true
      · rw [if_pos hq]
        have hmid : ∀ x ∈ c :: rest.takeWhile (fun d => d != c), x ≠ '<' ∧ x ≠ '>' := by
          intro x hx
          rcases List.mem_cons.mp hx with rfl | hx
          · exact h x (by simp)
          · exact h x (List.mem_cons_of_mem _ (mem_of_mem_takeWhile hx))
        have hafter : ∀ x ∈ (rest.dropWhile (fun d => d != c)).tail, x ≠ '<' ∧ x ≠ '>' :=
          fun x hx =>
            h x (List.mem_cons_of_mem _ (mem_of_mem_dropWhile' (List.mem_of_mem_tail hx)))
        have hc1 := (h c (by simp)).1
        have hc2 := (h c (by simp)).2
        have htw : ∀ x ∈ rest.takeWhile (fun d => d != c), x ≠ '<' ∧ x ≠ '>' :=
          fun x hx => h x (List.mem_cons_of_mem _ (mem_of_mem_takeWhile hx))
        simp only [List.append_assoc, List.cons_append]
        exact TagSafe.tag (by simp [tagList])
          (TagSafe.chr hc1 hc2
            ((tagSafe_of_no_angle htw).append
              (TagSafe.chr hc1 hc2
                (TagSafe.tag (by simp [tagList]) (ih _ hafter)))))
      · rw [if_neg hq]
        exact TagSafe.chr (h c (by simp)).1 (h c (by simp)).2
          (ih rest fun x hx => h x (by simp [hx]))

/-- The string pass on the escaped input is `TagSafe`. -/
theorem stringPass_tagSafe (l : List Char) : TagSafe (stringPass (escapeHtml l)) :=
  stringPassGo_tagSafe _ _ escapeHtml_no_angle

/-! ### Cutting a safe string -/

/-- `takeWhile` passes over a prefix whose characters all satisfy the
predicate. -/
theorem takeWhile_append_of_all {p : Char → Bool} :
    ∀ {a : List Char}, (∀ c ∈ a, p c = true) → ∀ (b : List Char),
      (a ++ b).takeWhile p = a ++ b.takeWhile p := by
  intro a
  induction a with
  | nil => intro _ b; rfl
  | cons c a' ih =>
    intro h b
    rw [List.cons_append, List.takeWhile_cons_of_pos (h c (by simp)),
      ih (fun x hx => h x (by simp [hx])) b, List.cons_append]

/-- `dropWhile` passes over a prefix whose characters all satisfy the
predicate. -/
theorem dropWhile_append_of_all {p : Char → Bool} :
    ∀ {a : List Char}, (∀ c ∈ a, p c = true) → ∀ (b : List Char),
      (a ++ b).dropWhile p = b.dropWhile p := by
  intro a
  induction a with
  | nil => intro _ b; rfl
  | cons c a' ih =>
    intro h b
    rw [List.cons_append, List.dropWhile_cons_of_pos (h c (by simp)),
      ih (fun x hx => h x (by simp [hx])) b]

/-- Cutting a safe string with a predicate that holds of every tag
character (the cut character occurs in no tag): the kept prefix is safe. -/
theorem tagSafe_takeWhile_pass {p : Char → Bool}
    (hp : ∀ t ∈ tagList, ∀ c ∈ t, p c = true) :
    ∀ {l : List Char}, TagSafe l → TagSafe (l.takeWhile p) := by
  intro l hs
  induction hs with
  | nil => exact TagSafe.nil
  | @chr c rest h1 h2 h3 ih =>
    by_cases hc : p c = true
    · rw [List.takeWhile_cons_of_pos hc]
      exact TagSafe.chr h1 h2 ih
    · rw [List.takeWhile_cons_of_neg (by simpa using hc)]
      exact TagSafe.nil
  | @tag t rest ht h3 ih =>
    rw [takeWhile_append_of_all (hp t ht) rest]
    exact TagSafe.tag ht ih

/-- As `tagSafe_takeWhile_pass`, for the dropped suffix. -/
theorem tagSafe_dropWhile_pass {p : Char → Bool}
    (hp : ∀ t ∈ tagList, ∀ c ∈ t, p c = true) :
    ∀ {l : List Char}, TagSafe l → TagSafe (l.dropWhile p) := by
  intro l hs
  induction hs with
  | nil => exact TagSafe.nil
  | @chr c rest h1 h2 h3 ih =>
    by_cases hc : p c = true
    · rw [List.dropWhile_cons_of_pos hc]
      exact ih
    · rw [List.dropWhile_cons_of_neg (by simpa using hc)]
      exact TagSafe.chr h1 h2 h3
  | @tag t rest ht h3 ih =>
    rw [dropWhile_append_of_all (hp t ht) rest]
    exact ih

/-- Dropping with a predicate that fails at `<` (the scan stops at or
before every tag): the suffix is safe. -/
theorem tagSafe_dropWhile_stop {p : Char → Bool} (hlt : p '<' = false) :
    ∀ {l : List Char}, TagSafe l → TagSafe (l.dropWhile p) := by
  intro l hs
  induction hs with
  | nil => exact TagSafe.nil
  | @chr c rest h1 h2 h3 ih =>
    by_cases hc : p c = true
    · rw [List.dropWhile_cons_of_pos hc]
      exact ih
    · rw [List.dropWhile_cons_of_neg (by simpa using hc)]
      exact TagSafe.chr h1 h2 h3
  | @tag t rest ht h3 ih =>
    have hh := tagList_head t ht
    cases t with
    | nil => simp at hh
    | cons d t' =>
      have hd : d = '<' := by simpa using hh
      subst hd
      rw [List.cons_append, List.dropWhile_cons_of_neg (by simp [hlt])]
      exact TagSafe.tag ht h3

/-- No tag contains a newline. -/
theorem tagList_no_newline : ∀ t ∈ tagList, ∀ c ∈ t, (c != '\n') = true := by decide

/-- No tag contains a digit. -/
theorem tagList_no_digit : ∀ t ∈ tagList, ∀ c ∈ t, c.isDigit = false := by decide

/-- No tag contains a star. -/
theorem tagList_no_star : ∀ t ∈ tagList, ∀ c ∈ t, c ≠ '*' := by decide

/-- Every tag is nonempty. -/
theorem tagList_nonempty : ∀ t ∈ tagList, 1 ≤ t.length := by decide

/-! ### The first `*​/` of a safe string -/

/-- `splitStarSlash` reconstructs its input. -/
theorem splitStarSlash_eq :
    ∀ {l a b : List Char}, splitStarSlash l = some (a, b) → l = a ++ '*' :: '/' :: b := by
  intro l
  induction l with
  | nil => intro a b h; simp [splitStarSlash] at h
  | cons c rest ih =>
    intro a b h
    rw [splitStarSlash] at h
    by_cases hc : c = '*' ∧ rest.head? = some '/'
    · rw [if_pos hc] at h
      simp only [Option.some.injEq, Prod.mk.injEq] at h
      obtain ⟨ha, hb⟩ := h
      subst ha
      subst hb
      obtain ⟨hstar, hhead⟩ := hc
      subst hstar
      cases rest with
      | nil => simp at hhead
      | cons d r' =>
        have hd : d = '/' := by simpa using hhead
        subst hd
        rfl
    · rw [if_neg hc] at h
      cases hss : splitStarSlash rest with
      | none => rw [hss] at h; simp at h
      | some pr =>
        rw [hss] at h
        obtain ⟨a', b'⟩ := pr
        simp only [Option.map_some', Option.some.injEq, Prod.mk.injEq] at h
        obtain ⟨ha, hb⟩ := h
        subst ha
        subst hb
        rw [List.cons_append]
        rw [← ih hss]

/-- Pushing `splitStarSlash` over a star-free prefix. -/
theorem splitStarSlash_append {a : List Char} (h : ∀ c ∈ a, c ≠ '*') :
    ∀ (b : List Char),
      splitStarSlash (a ++ b) = (splitStarSlash b).map (fun p => (a ++ p.1, p.2)) := by
  induction a with
  | nil =>
    intro b
    cases hss : splitStarSlash b <;> simp [hss]
  | cons c a' ih =>
    intro b
    rw [List.cons_append, splitStarSlash,
      if_neg (by intro hcc; exact h c (by simp) hcc.1),
      ih (fun x hx => h x (by simp [hx])) b]
    cases hss : splitStarSlash b <;> simp [hss]

/-- On a safe string, the pieces around the first `*​/` are both safe (no
tag contains a `*`, and the `/` of a tag is preceded by `<`, so the first
`*​/` lies wholly outside the tags). -/
theorem tagSafe_splitStarSlash :
    ∀ {l : List Char}, TagSafe l → ∀ {a b : List Char},
      splitStarSlash l = some (a, b) → TagSafe a ∧ TagSafe b := by
  intro l hs
  induction hs with
  | nil => intro a b h; simp [splitStarSlash] at h
  | @chr c rest h1 h2 h3 ih =>
    intro a b h
    rw [splitStarSlash] at h
    by_cases hc : c = '*' ∧ rest.head? = some '/'
    · rw [if_pos hc] at h
      simp only [Option.some.injEq, Prod.mk.injEq] at h
      obtain ⟨ha, hb⟩ := h
      subst ha
      subst hb
      refine ⟨TagSafe.nil, ?_⟩
      obtain ⟨hstar, hhead⟩ := hc
      cases rest with
      | nil => simp at hhead
      | cons d r' =>
        have hd : d = '/' := by simpa using hhead
        subst hd
        exact (tagSafe_cons_inv h3 (by decide)).2
    · rw [if_neg hc] at h
      cases hss : splitStarSlash rest with
      | none => rw [hss] at h; simp at h
      | some pr =>
        rw [hss] at h
        obtain ⟨a', b'⟩ := pr
        simp only [Option.map_some', Option.some.injEq, Prod.mk.injEq] at h
        obtain ⟨ha, hb⟩ := h
        subst ha
        subst hb
        obtain ⟨ia, ib⟩ := ih hss
        exact ⟨TagSafe.chr h1 h2 ia, ib⟩
  | @tag t rest ht h3 ih =>
    intro a b h
    rw [splitStarSlash_append (fun c hc => tagList_no_star t ht c hc) rest] at h
    cases hss : splitStarSlash rest with
    | none => rw [hss] at h; simp at h
    | some pr =>
      rw [hss] at h
      obtain ⟨a', b'⟩ := pr
      simp only [Option.map_some', Option.some.injEq, Prod.mk.injEq] at h
      obtain ⟨ha, hb⟩ := h
      subst ha
      subst hb
      obtain ⟨ia, ib⟩ := ih hss
      exact ⟨TagSafe.tag ht ia, ib⟩

/-! ### The comment pass preserves the invariant -/

/-- A segment over which the comment-pass scanner only copies characters:
no `#`, and every `/` is followed inside the segment by a character other
than `/` and `*`. Every tag satisfies this — the only `/` inside a tag is
the one of `</span>`, followed by `s` — and a tag ends in `>`, so no
match can start inside a tag or straddle its end. -/
def cmtInert : List Char → Bool
  | [] => true
  | c :: rest =>
    if c = '#' then false
    else if c = '/' then
      match rest with
      | [] => false
      | d :: _ => !(d == '/' || d == '*') && cmtInert rest
    else cmtInert rest

/-- Every tag is inert for the comment pass. -/
theorem tagList_cmtInert : ∀ t ∈ tagList, cmtInert t = true := by decide

/-- The comment pass on an empty input. -/
theorem commentPassGo_nil : ∀ f, commentPassGo f [] = [] := by
  intro f
  cases f <;> rfl

/-- Unfolding the comment-pass scanner one step. -/
theorem commentPassGo_cons (f : Nat) (c : Char) (rest : List Char) :
    commentPassGo (f + 1) (c :: rest) =
      (if c = '/' then
        match rest with
        | [] => c :: commentPassGo f rest
        | d :: rest2 =>
          if d = '/' then
            wrapComment ('/' :: '/' :: rest2.takeWhile (fun e => e != '\n')) ++
              commentPassGo f (rest2.dropWhile (fun e => e != '\n'))
          else if d = '*' then
            match splitStarSlash rest2 with
            | some (inner, after) =>
              wrapComment ('/' :: '*' :: inner ++ ('*' :: ['/'])) ++ commentPassGo f after
            | none => c :: commentPassGo f rest
          else c :: commentPassGo f rest
      else if c = '#' then
        wrapComment ('#' :: rest.takeWhile (fun e => e != '\n')) ++
          commentPassGo f (rest.dropWhile (fun e => e != '\n'))
      else c :: commentPassGo f rest) := rfl

/-- A scanner step at a character that opens no comment alternative. -/
theorem commentPassGo_step_other {c : Char} (h1 : c ≠ '/') (h2 : c ≠ '#')
    (f : Nat) (rest : List Char) :
    commentPassGo (f + 1) (c :: rest) = c :: commentPassGo f rest := by
  rw [commentPassGo_cons, if_neg h1, if_neg h2]

/-- A scanner step at a `/` not followed by `/` or `*`. -/
theorem commentPassGo_step_slash {d : Char} (hd1 : d ≠ '/') (hd2 : d ≠ '*')
    (f : Nat) (rest : List Char) :
    commentPassGo (f + 1) ('/' :: d :: rest) = '/' :: commentPassGo f (d :: rest) := by
  rw [commentPassGo_cons, if_pos rfl]
  simp only []
  rw [if_neg hd1, if_neg hd2]

/-- Reading off `cmtInert` at a `/`. -/
theorem cmtInert_slash_cons {d : Char} {t : List Char}
    (h : cmtInert ('/' :: d :: t) = true) :
    d ≠ '/' ∧ d ≠ '*' ∧ cmtInert (d :: t) = true := by
  have he : cmtInert ('/' :: d :: t) = (!(d == '/' || d == '*') && cmtInert (d :: t)) := rfl
  rw [he] at h
  simp only [Bool.and_eq_true, Bool.not_eq_true'] at h
  obtain ⟨hd, hrec⟩ := h
  have hd1 : d ≠ '/' := by
    intro h0
    subst h0
    simp at hd
  have hd2 : d ≠ '*' := by
    intro h0
    subst h0
    simp at hd
  exact ⟨hd1, hd2, hrec⟩

/-- Reading off `cmtInert` at a neutral character. -/
theorem cmtInert_cons_other {c : Char} {t : List Char} (h1 : c ≠ '#') (h2 : c ≠ '/')
    (h : cmtInert (c :: t) = true) : cmtInert t = true := by
  cases t with
  | nil => rfl
  | cons d t'' =>
    have he : cmtInert (c :: d :: t'') =
        (if c = '#' then false
         else if c = '/' then !(d == '/' || d == '*') && cmtInert (d :: t'')
         else cmtInert (d :: t'')) := rfl
    rw [he, if_neg h1, if_neg h2] at h
    exact h

/-- The comment-pass scanner copies an inert segment unchanged and
continues after it (one fuel unit per copied character). -/
theorem commentPassGo_inert :
    ∀ (t : List Char), cmtInert t = true → ∀ (f : Nat) (r : List Char),
      commentPassGo (t.length + f) (t ++ r) = t ++ commentPassGo f r := by
  intro t
  induction t with
  | nil => intro _ f r; simp
  | cons c t' ih =>
    intro hin f r
    have hfuel : (c :: t').length + f = (t'.length + f) + 1 := by
      simp [List.length_cons]
      omega
    rw [hfuel, List.cons_append]
    by_cases hsh : c = '#'
    · subst hsh
      simp [cmtInert] at hin
    by_cases hsl : c = '/'
    · subst hsl
      cases t' with
      | nil => exact absurd hin (by decide)
      | cons d t'' =>
        obtain ⟨hd1, hd2, hrec⟩ := cmtInert_slash_cons hin
        rw [List.cons_append, commentPassGo_step_slash hd1 hd2, ← List.cons_append,
          ih hrec f r]
        rfl
    · have hrec := cmtInert_cons_other hsh hsl hin
      rw [commentPassGo_step_other hsl hsh, ih hrec f r]
      rfl

/-- `TagSafe.tag` with the tag explicit (for unification). -/
theorem tagSafe_tag' (t : List Char) (h : t ∈ tagList) {r : List Char}
    (hr : TagSafe r) : TagSafe (t ++ r) :=
  TagSafe.tag h hr

/-- The comment pass preserves the invariant: matches start only at plain
characters, the end-of-line and `*​/` cuts never split a tag, the copied
match text is safe, and the replacement adds only whole tags around it. -/
theorem commentPassGo_tagSafe :
    ∀ (n : Nat), ∀ (f : Nat) (l : List Char), l.length ≤ n → l.length ≤ f →
      TagSafe l → TagSafe (commentPassGo f l) := by
  intro n
  induction n with
  | zero =>
    intro f l hn _ _
    have h0 : l = [] := by
      cases l with
      | nil => rfl
      | cons c r => simp at hn
    subst h0
    rw [commentPassGo_nil]
    exact TagSafe.nil
  | succ n' ih =>
    intro f l hn hf hs
    cases f with
    | zero => exact hs
    | succ f' =>
      cases hs with
      | nil =>
        rw [commentPassGo_nil]
        exact TagSafe.nil
      | @chr c rest h1 h2 h3 =>
        by_cases hsl : c = '/'
        · subst hsl
          cases rest with
          | nil =>
            rw [commentPassGo_cons, if_pos rfl]
            simp only []
            refine TagSafe.chr h1 h2 ?_
            rw [commentPassGo_nil]
            exact TagSafe.nil
          | cons d rest2 =>
            rw [commentPassGo_cons, if_pos rfl]
            simp only []
            have hlen2 : rest2.length + 2 ≤ n' + 1 := by
              simpa [List.length_cons] using hn
            have hflen2 : rest2.length + 2 ≤ f' + 1 := by
              simpa [List.length_cons] using hf
            by_cases hd1 : d = '/'
            · subst hd1
              rw [if_pos rfl]
              have hr2 : TagSafe rest2 := (tagSafe_cons_inv h3 (by decide)).2
              have htw := tagSafe_takeWhile_pass tagList_no_newline hr2
              have hdw := tagSafe_dropWhile_pass tagList_no_newline hr2
              have hdlen : (rest2.dropWhile (fun e => e != '\n')).length ≤ rest2.length :=
                (List.dropWhile_sublist _).length_le
              simp only [wrapComment, List.append_assoc, List.cons_append]
              exact tagSafe_tag' codeCommentOpen (by simp [tagList])
                (TagSafe.chr (by decide) (by decide)
                  (TagSafe.chr (by decide) (by decide)
                    (htw.append (tagSafe_tag' spanClose (by simp [tagList])
                      (ih f' _ (by omega) (by omega) hdw)))))
            · by_cases hd2 : d = '*'
              · subst hd2
                rw [if_neg hd1, if_pos rfl]
                cases hsplit : splitStarSlash rest2 with
                | none =>
                  simp only []
                  refine TagSafe.chr h1 h2 ?_
                  exact ih f' _ (by simpa using hlen2) (by simpa using hflen2) h3
                | some pr =>
                  obtain ⟨inner, after⟩ := pr
                  simp only []
                  have hr2 : TagSafe rest2 := (tagSafe_cons_inv h3 (by decide)).2
                  obtain ⟨hia, hib⟩ := tagSafe_splitStarSlash hr2 hsplit
                  have hrlen := splitStarSlash_eq hsplit
                  have hafter : after.length + inner.length + 2 = rest2.length := by
                    rw [hrlen]
                    simp [List.length_append]
                    omega
                  simp only [wrapComment, List.append_assoc, List.cons_append]
                  exact tagSafe_tag' codeCommentOpen (by simp [tagList])
                    (TagSafe.chr (by decide) (by decide)
                      (TagSafe.chr (by decide) (by decide)
                        (hia.append
                          (TagSafe.chr (by decide) (by decide)
                            (TagSafe.chr (by decide) (by decide)
                              (tagSafe_tag' spanClose (by simp [tagList])
                                (ih f' _ (by omega) (by omega) hib)))))))
              · rw [if_neg hd1, if_neg hd2]
                refine TagSafe.chr h1 h2 ?_
                exact ih f' _ (by simpa using hlen2) (by simpa using hflen2) h3
        · by_cases hsh : c = '#'
          · subst hsh
            rw [commentPassGo_cons, if_neg hsl, if_pos rfl]
            have htw := tagSafe_takeWhile_pass tagList_no_newline h3
            have hdw := tagSafe_dropWhile_pass tagList_no_newline h3
            have hdlen : (rest.dropWhile (fun e => e != '\n')).length ≤ rest.length :=
              (List.dropWhile_sublist _).length_le
            have hlen2 : rest.length + 1 ≤ n' + 1 := by
              simpa [List.length_cons] using hn
            have hflen2 : rest.length + 1 ≤ f' + 1 := by
              simpa [List.length_cons] using hf
            simp only [wrapComment, List.append_assoc, List.cons_append]
            exact tagSafe_tag' codeCommentOpen (by simp [tagList])
              (TagSafe.chr (by decide) (by decide)
                (htw.append (tagSafe_tag' spanClose (by simp [tagList])
                  (ih f' _ (by omega) (by omega) hdw))))
          · rw [commentPassGo_step_other hsl hsh]
            refine TagSafe.chr h1 h2 ?_
            have hlen2 : rest.length + 1 ≤ n' + 1 := by
              simpa [List.length_cons] using hn
            have hflen2 : rest.length + 1 ≤ f' + 1 := by
              simpa [List.length_cons] using hf
            exact ih f' _ (by omega) (by omega) h3
      | @tag t rest ht h3 =>
        have h1t := tagList_nonempty t ht
        rw [List.length_append] at hn hf
        have heq : f' + 1 = t.length + (f' + 1 - t.length) := by omega
        rw [heq, commentPassGo_inert t (tagList_cmtInert t ht)]
        exact TagSafe.tag ht (ih (f' + 1 - t.length) rest (by omega) (by omega) h3)

/-- The comment pass preserves the invariant. -/
theorem commentPass_tagSafe {l : List Char} (hs : TagSafe l) : TagSafe (commentPass l) :=
  commentPassGo_tagSafe l.length l.length l (le_refl _) (le_refl _) hs

/-! ### The number pass preserves the invariant -/

/-- The number pass on an empty input. -/
theorem numberPassGo_nil : ∀ f pre, numberPassGo f pre [] = [] := by
  intro f pre
  cases f <;> rfl

/-- Unfolding the number-pass scanner one step. -/
theorem numberPassGo_cons (f : Nat) (pre : List Char) (c : Char) (rest : List Char) :
    numberPassGo (f + 1) pre (c :: rest) =
      (if c.isDigit && !lastIsWord pre && !blockedSpanBefore pre then
        match numMatch (c :: rest) with
        | some (m, r) => codeNumberOpen ++ m ++ spanClose ++ numberPassGo f (pre ++ m) r
        | none => c :: numberPassGo f (pre ++ [c]) rest
      else c :: numberPassGo f (pre ++ [c]) rest) := rfl

/-- A scanner step at a non-digit. -/
theorem numberPassGo_step {c : Char} (h : c.isDigit = false) (f : Nat)
    (pre rest : List Char) :
    numberPassGo (f + 1) pre (c :: rest) = c :: numberPassGo f (pre ++ [c]) rest := by
  rw [numberPassGo_cons, if_neg (by simp [h])]

/-- The number-pass scanner copies a digit-free segment unchanged. -/
theorem numberPassGo_inert :
    ∀ (t : List Char), (∀ c ∈ t, c.isDigit = false) → ∀ (f : Nat) (pre r : List Char),
      numberPassGo (t.length + f) pre (t ++ r) = t ++ numberPassGo f (pre ++ t) r := by
  intro t
  induction t with
  | nil => intro _ f pre r; simp
  | cons c t' ih =>
    intro h f pre r
    have hfuel : (c :: t').length + f = (t'.length + f) + 1 := by
      simp [List.length_cons]
      omega
    rw [hfuel, List.cons_append, numberPassGo_step (h c (by simp)),
      ih (fun x hx => h x (by simp [hx])) f (pre ++ [c]) r, List.append_assoc]
    rfl

/-- A digit is not an angle bracket. -/
theorem digit_no_angle {x : Char} (h : x.isDigit = true) : x ≠ '<' ∧ x ≠ '>' := by
  constructor <;> intro h0 <;> subst h0 <;> simp at h

/-- What `numMatch` can return on a safe input starting with a digit: the
match text is digits and dots (hence angle-free) and the remainder is a
safe proper suffix. -/
theorem numMatch_facts {c : Char} {rest : List Char} (hs : TagSafe (c :: rest))
    (hdig : c.isDigit = true) :
    ∀ {m r : List Char}, numMatch (c :: rest) = some (m, r) →
      (∀ x ∈ m, x ≠ '<' ∧ x ≠ '>') ∧ TagSafe r ∧ r.length < (c :: rest).length := by
  intro m r h
  have hd1mem : ∀ x ∈ (c :: rest).takeWhile Char.isDigit, x ≠ '<' ∧ x ≠ '>' :=
    fun x hx => digit_no_angle (takeWhile_mem_prop hx)
  have hr1safe : TagSafe ((c :: rest).dropWhile Char.isDigit) :=
    tagSafe_dropWhile_stop (by decide) hs
  have hr1len : ((c :: rest).dropWhile Char.isDigit).length ≤ rest.length := by
    rw [List.dropWhile_cons_of_pos hdig]
    exact (List.dropWhile_sublist _).length_le
  simp only [numMatch] at h
  split at h
  next r2 heq =>
    rw [heq] at hr1safe hr1len
    have hr2safe : TagSafe r2 := (tagSafe_cons_inv hr1safe (by decide)).2
    have hd2mem : ∀ x ∈ r2.takeWhile Char.isDigit, x ≠ '<' ∧ x ≠ '>' :=
      fun x hx => digit_no_angle (takeWhile_mem_prop hx)
    have hr3safe : TagSafe (r2.dropWhile Char.isDigit) :=
      tagSafe_dropWhile_stop (by decide) hr2safe
    have hr3len : (r2.dropWhile Char.isDigit).length ≤ r2.length :=
      (List.dropWhile_sublist _).length_le
    have hr2len : r2.length + 1 ≤ rest.length := by
      simpa [List.length_cons] using hr1len
    have hdotmem : ∀ x ∈ (c :: rest).takeWhile Char.isDigit ++ ['.'], x ≠ '<' ∧ x ≠ '>' := by
      intro x hx
      rcases List.mem_append.mp hx with hx | hx
      · exact hd1mem x hx
      · rcases List.mem_singleton.mp hx with rfl
        exact ⟨by decide, by decide⟩
    split_ifs at h <;>
      simp only [Option.some.injEq, Prod.mk.injEq] at h <;>
      obtain ⟨hm, hr⟩ := h <;> subst hm <;> subst hr
    · refine ⟨?_, hr3safe, by simp [List.length_cons]; omega⟩
      intro x hx
      rcases List.mem_append.mp hx with hx | hx
      · exact hd1mem x hx
      rcases List.mem_cons.mp hx with rfl | hx
      · exact ⟨by decide, by decide⟩
      · exact hd2mem x hx
    · exact ⟨hdotmem, hr2safe, by simp [List.length_cons]; omega⟩
    · exact ⟨hd1mem, hr1safe, by simp [List.length_cons]; omega⟩
    · exact ⟨hdotmem, hr2safe, by simp [List.length_cons]; omega⟩
    · exact ⟨hd1mem, hr1safe, by simp [List.length_cons]; omega⟩
  next heq2 =>
    split_ifs at h
    simp only [Option.some.injEq, Prod.mk.injEq] at h
    obtain ⟨hm, hr⟩ := h
    subst hm
    subst hr
    exact ⟨hd1mem, hr1safe, by simp [List.length_cons]; omega⟩

/-- The number pass preserves the invariant: matches start at digits
(which occur in no tag), the matched text is digits and dots, the cut
never splits a tag, and the replacement adds only whole tags. -/
theorem numberPassGo_tagSafe :
    ∀ (n : Nat), ∀ (f : Nat) (pre l : List Char), l.length ≤ n → l.length ≤ f →
      TagSafe l → TagSafe (numberPassGo f pre l) := by
  intro n
  induction n with
  | zero =>
    intro f pre l hn _ _
    have h0 : l = [] := by
      cases l with
      | nil => rfl
      | cons c r => simp at hn
    subst h0
    rw [numberPassGo_nil]
    exact TagSafe.nil
  | succ n' ih =>
    intro f pre l hn hf hs
    cases f with
    | zero => exact hs
    | succ f' =>
      cases hs with
      | nil =>
        rw [numberPassGo_nil]
        exact TagSafe.nil
      | @chr c rest h1 h2 h3 =>
        have hlenc : rest.length + 1 ≤ n' + 1 := by
          simpa [List.length_cons] using hn
        have hflenc : rest.length + 1 ≤ f' + 1 := by
          simpa [List.length_cons] using hf
        by_cases hcond : (c.isDigit && !lastIsWord pre && !blockedSpanBefore pre) = true
        · rw [numberPassGo_cons, if_pos hcond]
          have hdig : c.isDigit = true := by
            simp only [Bool.and_eq_true] at hcond
            exact hcond.1.1
          cases hnm : numMatch (c :: rest) with
          | none =>
            simp only []
            exact TagSafe.chr h1 h2 (ih f' (pre ++ [c]) rest (by omega) (by omega) h3)
          | some pr =>
            obtain ⟨m, r⟩ := pr
            simp only []
            obtain ⟨hm, hr, hrlen⟩ := numMatch_facts (TagSafe.chr h1 h2 h3) hdig hnm
            rw [List.length_cons] at hrlen
            simp only [List.append_assoc]
            exact tagSafe_tag' codeNumberOpen (by simp [tagList])
              ((tagSafe_of_no_angle hm).append
                (tagSafe_tag' spanClose (by simp [tagList])
                  (ih f' (pre ++ m) r (by omega) (by omega) hr)))
        · rw [numberPassGo_cons, if_neg hcond]
          exact TagSafe.chr h1 h2 (ih f' (pre ++ [c]) rest (by omega) (by omega) h3)
      | @tag t rest ht h3 =>
        have h1t := tagList_nonempty t ht
        rw [List.length_append] at hn hf
        have heq : f' + 1 = t.length + (f' + 1 - t.length) := by omega
        rw [heq, numberPassGo_inert t (tagList_no_digit t ht)]
        exact TagSafe.tag ht (ih (f' + 1 - t.length) (pre ++ t) rest (by omega) (by omega) h3)

/-- The number pass preserves the invariant. -/
theorem numberPass_tagSafe {l : List Char} (hs : TagSafe l) : TagSafe (numberPass l) :=
  numberPassGo_tagSafe l.length l.length [] l (le_refl _) (le_refl _) hs

/-- The whole pipeline without keywords produces only tag-enclosed angle
brackets. -/
theorem pipeline_tagSafe (code : List Char) :
    TagSafe (numberPass (commentPass (stringPass (escapeHtml code)))) :=
  numberPass_tagSafe (commentPass_tagSafe (stringPass_tagSafe code))

/-! ### A decidable consequence of the invariant, and C9 -/

/-- The body of an open tag after its `<`. -/
def spanOpenTailS : String := "span class=\"code-"

/-- The body of `</span>` after its `<`. -/
def spanCloseTailS : String := "/span>"

/-- Every `<` of the string opens an inserted tag (a decidable
consequence of `TagSafe`, used to refute it on a concrete output). -/
def anglesOk : List Char → Bool
  | [] => true
  | c :: rest =>
    if c = '<' then
      (spanOpenTailS.data.isPrefixOf rest || spanCloseTailS.data.isPrefixOf rest) &&
        anglesOk rest
    else anglesOk rest

/-- Unfolding `anglesOk` one step. -/
theorem anglesOk_cons (c : Char) (rest : List Char) :
    anglesOk (c :: rest) =
      (if c = '<' then
        (spanOpenTailS.data.isPrefixOf rest || spanCloseTailS.data.isPrefixOf rest) &&
          anglesOk rest
      else anglesOk rest) := rfl

/-- A prefix stays a prefix under extension on the right. -/
theorem isPrefixOf_append_right {a : List Char} :
    ∀ {b : List Char}, a.isPrefixOf b = true → ∀ (r : List Char),
      a.isPrefixOf (b ++ r) = true := by
  induction a with
  | nil => intro b _ r; simp [List.isPrefixOf]
  | cons x a' ih =>
    intro b h r
    cases b with
    | nil => simp [List.isPrefixOf] at h
    | cons y b' =>
      simp only [List.isPrefixOf, Bool.and_eq_true] at h
      obtain ⟨hxy, h'⟩ := h
      simp only [List.cons_append, List.isPrefixOf, Bool.and_eq_true]
      exact ⟨hxy, ih h' r⟩

/-- `anglesOk` skips a `<`-free segment. -/
theorem anglesOk_append_no_lt {a : List Char} (h : ∀ c ∈ a, c ≠ '<') :
    ∀ (rest : List Char), anglesOk (a ++ rest) = anglesOk rest := by
  induction a with
  | nil => intro rest; rfl
  | cons c a' ih =>
    intro rest
    rw [List.cons_append, anglesOk_cons, if_neg (h c (by simp))]
    exact ih (fun x hx => h x (by simp [hx])) rest

/-- Every tag's body after `<` starts with one of the two tag tails. -/
theorem tagList_tail_shape :
    ∀ t ∈ tagList,
      (spanOpenTailS.data.isPrefixOf t.tail || spanCloseTailS.data.isPrefixOf t.tail) = true := by
  decide

/-- No tag contains a second `<`. -/
theorem tagList_tail_no_lt : ∀ t ∈ tagList, ∀ c ∈ t.tail, c ≠ '<' := by decide

/-- `TagSafe` implies the decidable `anglesOk` check. -/
theorem tagSafe_anglesOk : ∀ {l : List Char}, TagSafe l → anglesOk l = true := by
  intro l hs
  induction hs with
  | nil => rfl
  | @chr c rest h1 h2 h3 ih =>
    rw [anglesOk_cons, if_neg h1]
    exact ih
  | @tag t rest ht h3 ih =>
    have hh := tagList_head t ht
    cases t with
    | nil => simp at hh
    | cons d t' =>
      have hd : d = '<' := by simpa using hh
      subst hd
      rw [List.cons_append, anglesOk_cons, if_pos rfl]
      have hshape := tagList_tail_shape _ ht
      have hnolt := tagList_tail_no_lt _ ht
      simp only [List.tail_cons] at hshape hnolt
      have hpre : (spanOpenTailS.data.isPrefixOf (t' ++ rest) ||
          spanCloseTailS.data.isPrefixOf (t' ++ rest)) = true := by
        rcases Bool.or_eq_true_iff.mp hshape with hx | hx
        · exact Bool.or_eq_true_iff.mpr (Or.inl (isPrefixOf_append_right hx rest))
        · exact Bool.or_eq_true_iff.mpr (Or.inr (isPrefixOf_append_right hx rest))
      rw [hpre, anglesOk_append_no_lt hnolt rest, ih]
      rfl

/-- C9's counterexample input: a line comment containing a backtick
string. The comment pass wraps the whole line — string tags included —
in a comment span, and the keyword pass for `class` then matches the
`class` inside the outer opening tag itself (its negative lookahead sees
the inner `<span` before any `</span>`, and no completed tag precedes it
on the line), splitting the tag. -/
def c9badCode : String := "// `a` b"

set_option maxRecDepth 100000 in
/-- C9 counterexample: on `// `a` b` with language `javascript` the
classifier's output violates the claimed invariant — it contains a `<`
(the broken outer comment tag's) that belongs to no inserted span tag. -/
theorem c9_counterexample :
    ¬ TagSafe ((highlightCode c9badCode "javascript").getD "").data := by
  intro h
  have h2 := tagSafe_anglesOk h
  exact absurd h2 (by decide)

/-- C9 (amended): for every code string and every language tag whose
keyword list is empty (an unknown, non-throwing tag), every `<` and `>`
of the classifier's output belongs to a classifier-inserted span tag, and
the input's own angle brackets survive only as `&lt;`/`&gt;` entities
inside the plain segments. With a nonempty keyword list the keyword pass
can split previously inserted tags (see `c9_counterexample`). -/
theorem c9_angles_only_in_tags (code language : String)
    (htab : keywords (jsToLower language) = none)
    (hproto : jsToLower language ∉ objectProtoLowercaseKeys)
    {out : String} (hout : highlightCode code language = some out) :
    TagSafe out.data := by
  have hlk : langKeywords language = some [] := by
    unfold langKeywords
    rw [htab]
    simp [hproto]
  unfold highlightCode at hout
  rw [hlk] at hout
  simp only [Option.some.injEq] at hout
  subst hout
  exact pipeline_tagSafe code.data

/-- Witness for C9's amended theorem at the concrete input
`("a", "zzz")`. -/
theorem c9_angles_only_in_tags_witness :
    TagSafe ((highlightCode "a" "zzz").getD "").data :=
  c9_angles_only_in_tags "a" "zzz" (by decide) (by decide) (by decide)
